import Mathlib

/-!
Verification of the QuranSharingApp media-timeline core against its
natural-language specification.

The Python source is shallowly embedded: audio segments are represented by
their millisecond lengths together with the output of the external
silence detector (`pydub.silence.detect_nonsilent`), times are rationals
(Python floats used only for exact-arithmetic bookkeeping here), and
fallible operations return `Option`.
-/

/- ## Segment Assembler (quran_video_server_api/video_generator.py) -/

/-- An audio segment as seen by `trim_silence`: its length in milliseconds
(`len(audio)` in pydub) and the list of non-silent `(start, end)` ranges the
external detector `detect_nonsilent` reports for it. The detector is the
pluggable DSP capability; its answer is carried as data. -/
structure Audio where
  lengthMs : Nat
  nonSilent : List (Nat × Nat)
deriving DecidableEq

/-- A path handed to the assembler: the file may be missing
(`not file_path.exists()`), may fail to decode (the `except` branch of
`trim_silence` returns `None`), or decodes to an `Audio`. -/
inductive AudioFile where
  | missing
  | undecodable
  | ok (a : Audio)
deriving DecidableEq

def AudioFile.isMissing : AudioFile → Bool
  | .missing => true
  | _ => false

/-- `trim_silence` (video_generator.py:38-58), returning the length of the
segment it produces. If the source is missing or decoding raises, it returns
`None`. If `detect_nonsilent` finds no non-silent range it returns the
original audio unchanged. Otherwise it slices
`audio[ranges[0][0] : ranges[-1][1]]`; the pydub slice clamps the end index
to the segment length. -/
def trim_silence : AudioFile → Option Nat
  | .missing => none
  | .undecodable => none
  | .ok a =>
    match a.nonSilent with
    | [] => some a.lengthMs
    | r :: rs => some (min ((rs.getLastD r).2) a.lengthMs - r.1)

/-- The `processed_segments` list of `concatenate_audio_files_smooth`
(video_generator.py:77-87): each file is trimmed and the result appended
only when `if trimmed_segment:` holds, i.e. the result is not `None` and has
nonzero length (pydub `AudioSegment.__len__` truthiness). -/
def processedSegments (files : List AudioFile) : List Nat :=
  files.filterMap fun f =>
    (trim_silence f).bind fun l => if 0 < l then some l else none

/-- `safe_crossfade = max(1, min(crossfade_duration, len(final_audio),
len(segment)))` (video_generator.py:98). -/
def safeCrossfade (conf accLen segLen : Int) : Int :=
  max 1 (min conf (min accLen segLen))

/-- One pairwise join of the assembler: the length of the already
accumulated track, the incoming segment's length, and the crossfade
actually applied. -/
structure JoinStep where
  accLen : Int
  segLen : Int
  applied : Int
deriving DecidableEq

/-- The joins performed by the loop at video_generator.py:97-101, starting
from accumulated length `acc`. `final_audio.append(segment, crossfade=c)`
yields a segment of length `len(final_audio) + len(segment) - c`. -/
def joinSteps (conf : Int) : Int → List Nat → List JoinStep
  | _, [] => []
  | acc, l :: rest =>
    let safe := safeCrossfade conf acc (l : Int)
    ⟨acc, (l : Int), safe⟩ :: joinSteps conf (acc + (l : Int) - safe) rest

/-- All pairwise joins performed for a given input file list: the first
processed segment seeds `final_audio`, the remaining ones are appended. -/
def assemblerJoins (files : List AudioFile) (conf : Int) : List JoinStep :=
  match processedSegments files with
  | [] => []
  | l :: rest => joinSteps conf (l : Int) rest

/-- Length of `final_audio` after all joins, before padding. -/
def finalLength (conf : Int) : Int → List Nat → Int
  | acc, [] => acc
  | acc, l :: rest =>
    finalLength conf (acc + (l : Int) - safeCrossfade conf acc (l : Int)) rest

/-- Outcome of `concatenate_audio_files_smooth`: it can raise
`FileNotFoundError` (a missing input file), return `None` (no input files
or no segment survived trimming), or produce a track of some length. -/
inductive ConcatResult where
  | raised
  | noOutput
  | done (lengthMs : Int)
deriving DecidableEq

/-- `concatenate_audio_files_smooth` (video_generator.py:62-121), modelled
on the length of the produced track. A missing file raises before any
output; an empty `processed_segments` returns `None`; otherwise segments
are crossfade-joined and `padding_duration_ms` of silence is appended when
positive. -/
def concatenate_audio_files_smooth
    (files : List AudioFile) (conf padMs : Int) : ConcatResult :=
  if files.isEmpty then .noOutput
  else if files.any AudioFile.isMissing then .raised
  else
    match processedSegments files with
    | [] => .noOutput
    | l :: rest =>
      let total := finalLength conf (l : Int) rest
      .done (if 0 < padMs then total + padMs else total)

/- Helper lemmas about the join loop. -/

lemma joinSteps_applied_eq (conf : Int) :
    ∀ (segs : List Nat) (acc : Int), ∀ s ∈ joinSteps conf acc segs,
      s.applied = safeCrossfade conf s.accLen s.segLen := by
  intro segs
  induction segs with
  | nil => intro acc s hs; simp [joinSteps] at hs
  | cons l rest ih =>
    intro acc s hs
    simp only [joinSteps, List.mem_cons] at hs
    rcases hs with rfl | hs
    · rfl
    · exact ih _ s hs

lemma assemblerJoins_applied_eq (files : List AudioFile) (conf : Int) :
    ∀ s ∈ assemblerJoins files conf,
      s.applied = safeCrossfade conf s.accLen s.segLen := by
  intro s hs
  unfold assemblerJoins at hs
  rcases h : processedSegments files with _ | ⟨l, rest⟩ <;> rw [h] at hs
  · simp at hs
  · exact joinSteps_applied_eq conf rest _ s hs

/-- Claim C2 counterexample: a 1000 ms segment in which the silence
detector finds no non-silent region is not treated as a trimming failure:
`trim_silence` returns the original audio, the segment is not excluded from
`processed_segments`, and the concatenated track contains it. -/
theorem trim_silence_silent_not_excluded_cex :
    trim_silence (.ok ⟨1000, []⟩) = some 1000 ∧
    trim_silence (.ok ⟨1000, []⟩) ≠ none ∧
    processedSegments [.ok ⟨1000, []⟩] = [1000] ∧
    processedSegments [.ok ⟨1000, []⟩] ≠ [] ∧
    concatenate_audio_files_smooth [.ok ⟨1000, []⟩] 150 100 = .done 1100 := by
  refine ⟨rfl, by decide, rfl, by decide, rfl⟩

/-- Claim C2 (amended): a segment with no detected non-silent region is
returned unchanged by `trim_silence` (not reported as a failure), is kept
in the concatenated track whenever its length is nonzero, and no exception
is raised for it; only missing files (which raise) and decode failures or
zero-length results lead to exclusion. -/
theorem trim_silence_silent_kept (a : Audio) (h : a.nonSilent = []) :
    trim_silence (.ok a) = some a.lengthMs ∧
    (0 < a.lengthMs → processedSegments [.ok a] = [a.lengthMs]) ∧
    ∀ conf padMs : Int,
      concatenate_audio_files_smooth [.ok a] conf padMs ≠ .raised := by
  refine ⟨by simp [trim_silence, h], ?_, ?_⟩
  · intro hl
    simp [processedSegments, trim_silence, h, hl]
  · intro conf padMs hc
    unfold concatenate_audio_files_smooth at hc
    simp [AudioFile.isMissing] at hc
    rcases hp : processedSegments [.ok a] with _ | ⟨l, rest⟩ <;>
      rw [hp] at hc <;> simp at hc

/-- Claim C2 (amended) witness at a concrete silent segment. -/
theorem trim_silence_silent_kept_witness :
    trim_silence (.ok ⟨1000, []⟩) = some 1000 ∧
    processedSegments [.ok ⟨1000, []⟩] = [1000] ∧
    concatenate_audio_files_smooth [.ok ⟨1000, []⟩] 150 100 ≠ .raised := by
  obtain ⟨h1, h2, h3⟩ := trim_silence_silent_kept ⟨1000, []⟩ rfl
  exact ⟨h1, h2 (by decide), h3 150 100⟩

/-- Claim C3 counterexample: with configured crossfade 0 and two 1000 ms
fully non-silent segments, the join applies a 1 ms crossfade, which exceeds
min(configured crossfade, shorter neighboring length) = 0. -/
theorem crossfade_exceeds_min_cex :
    assemblerJoins [.ok ⟨1000, [(0, 1000)]⟩, .ok ⟨1000, [(0, 1000)]⟩] 0 =
      [⟨1000, 1000, 1⟩] ∧
    ¬ ((1 : Int) ≤ min 0 (min 1000 1000)) := by
  exact ⟨rfl, by decide⟩

/-- Claim C3 (amended): in every pairwise join, the applied crossfade
equals `max 1 (min configured (min accumulatedLen segmentLen))`; in
particular it never exceeds min(configured, shorter neighboring length)
whenever that minimum is at least 1 ms, and can exceed it (being floored
at 1 ms) only when that minimum is below 1 ms. -/
theorem crossfade_clamped (files : List AudioFile) (conf : Int)
    (s : JoinStep) (hs : s ∈ assemblerJoins files conf) :
    s.applied = max 1 (min conf (min s.accLen s.segLen)) ∧
    (1 ≤ min conf (min s.accLen s.segLen) →
      s.applied ≤ min conf (min s.accLen s.segLen)) := by
  have h := assemblerJoins_applied_eq files conf s hs
  refine ⟨h, ?_⟩
  intro h1
  rw [h, safeCrossfade]
  exact max_le h1 le_rfl

/-- Claim C3 (amended) witness: the unique join of two 1000 ms segments at
configured crossfade 150 applies exactly 150 ms. -/
theorem crossfade_clamped_witness :
    (⟨1000, 1000, 150⟩ : JoinStep) ∈
      assemblerJoins [.ok ⟨1000, [(0, 1000)]⟩, .ok ⟨1000, [(0, 1000)]⟩] 150 ∧
    (⟨1000, 1000, 150⟩ : JoinStep).applied ≤
      min 150 (min (1000 : Int) 1000) := by
  have hmem : (⟨1000, 1000, 150⟩ : JoinStep) ∈
      assemblerJoins [.ok ⟨1000, [(0, 1000)]⟩, .ok ⟨1000, [(0, 1000)]⟩] 150 := by
    decide
  exact ⟨hmem,
    (crossfade_clamped _ 150 _ hmem).2 (by decide)⟩

/-- Claim C10: every pairwise join performed by the assembler applies a
crossfade of at least 1 ms, even when the configured crossfade is zero, so
no join is a plain crossfade-free concatenation. -/
theorem crossfade_at_least_one_ms (files : List AudioFile) (conf : Int)
    (s : JoinStep) (hs : s ∈ assemblerJoins files conf) :
    1 ≤ s.applied := by
  rw [assemblerJoins_applied_eq files conf s hs, safeCrossfade]
  exact le_max_left 1 _

/-- Claim C10 witness: at configured crossfade 0 the single join still
applies 1 ms. -/
theorem crossfade_at_least_one_ms_witness :
    (⟨1000, 1000, 1⟩ : JoinStep) ∈
      assemblerJoins [.ok ⟨1000, [(0, 1000)]⟩, .ok ⟨1000, [(0, 1000)]⟩] 0 ∧
    1 ≤ (⟨1000, 1000, 1⟩ : JoinStep).applied := by
  have hmem : (⟨1000, 1000, 1⟩ : JoinStep) ∈
      assemblerJoins [.ok ⟨1000, [(0, 1000)]⟩, .ok ⟨1000, [(0, 1000)]⟩] 0 := by
    decide
  exact ⟨hmem, crossfade_at_least_one_ms _ 0 _ hmem⟩

/- ## Offset bookkeeping (quran_video_server_api/main.py,
   process_video_generation) -/

/-- One raw word timestamp as produced by `get_arabic_text_and_timestamps`
and consumed by the offset loop: `{word_index, text, start_time, end_time}`
in seconds. -/
structure TsEntry where
  word_index : Nat
  text : String
  start_time : ℚ
  end_time : ℚ
deriving DecidableEq

/-- A raw timestamp shifted onto the global track and tagged with its ayah
index (main.py:148-155). -/
structure OffsetTs where
  word_index : Nat
  text : String
  start_time : ℚ
  end_time : ℚ
  ayah_index : Nat
deriving DecidableEq

/-- Per-ayah data gathered in the loop of `process_video_generation`:
its raw word timestamps and the duration MoviePy reads from the downloaded
(untrimmed) audio file; `none` models a failed duration read. -/
structure AyahJob where
  rawTs : List TsEntry
  rawDuration : Option ℚ
deriving DecidableEq

/-- `segment_duration_s` (main.py:132-143): the raw file duration, forced
to 0 when it is non-positive or could not be read. -/
def segDur (a : AyahJob) : ℚ :=
  match a.rawDuration with
  | none => 0
  | some d => if d ≤ 0 then 0 else d

/-- Shifting one ayah's raw timestamps by the current offset and tagging
them with the ayah index (main.py:148-155). -/
def offsetAyah (off : ℚ) (idx : Nat) (ts : List TsEntry) : List OffsetTs :=
  ts.map fun t => ⟨t.word_index, t.text, t.start_time + off, t.end_time + off, idx⟩

/-- The offset loop of main.py:92-163, grouped per ayah: each ayah's
timestamps are shifted by the current offset, then the offset advances by
`segment_duration_s` of that ayah's raw downloaded file. -/
def buildOffsetGroups : List AyahJob → ℚ → Nat → List (List OffsetTs)
  | [], _, _ => []
  | a :: rest, off, idx =>
    offsetAyah off idx a.rawTs :: buildOffsetGroups rest (off + segDur a) (idx + 1)

/-- `all_word_timestamps` (main.py:160): the flat, per-ayah-offset list. -/
def allWordTimestamps (jobs : List AyahJob) : List OffsetTs :=
  (buildOffsetGroups jobs 0 0).flatten

/-- The value of `current_audio_offset_s` at the start of each ayah
(main.py:89,163). -/
def segOffsets : List AyahJob → ℚ → List ℚ
  | [], _ => []
  | a :: rest, off => off :: segOffsets rest (off + segDur a)

lemma segOffsets_get? (jobs : List AyahJob) :
    ∀ (off : ℚ) (i : Nat), i < jobs.length →
      (segOffsets jobs off).get? i =
        some (off + ((jobs.take i).map segDur).sum) := by
  induction jobs with
  | nil => intro off i hi; simp at hi
  | cons a rest ih =>
    intro off i hi
    cases i with
    | zero => simp [segOffsets]
    | succ j =>
      have hj : j < rest.length := by simpa using hi
      simp only [segOffsets, List.get?_cons_succ, List.take_succ_cons,
        List.map_cons, List.sum_cons]
      rw [ih (off + segDur a) j hj]
      ring_nf

lemma buildOffsetGroups_get? (jobs : List AyahJob) :
    ∀ (off : ℚ) (idx i : Nat) (hi : i < jobs.length),
      (buildOffsetGroups jobs off idx).get? i =
        some (offsetAyah (off + ((jobs.take i).map segDur).sum) (idx + i)
          (jobs.get ⟨i, hi⟩).rawTs) := by
  induction jobs with
  | nil => intro off idx i hi; simp at hi
  | cons a rest ih =>
    intro off idx i hi
    cases i with
    | zero => simp [buildOffsetGroups]
    | succ j =>
      have hj : j < rest.length := by simpa using hi
      simp only [buildOffsetGroups, List.get?_cons_succ, List.take_succ_cons,
        List.map_cons, List.sum_cons, List.get_cons_succ]
      rw [ih (off + segDur a) (idx + 1) j hj]
      have h1 : off + segDur a + ((rest.take j).map segDur).sum =
          off + (segDur a + ((rest.take j).map segDur).sum) := by ring
      have h2 : idx + 1 + j = idx + (j + 1) := by omega
      rw [h1, h2]

/-- Claim C1 counterexample: two units whose raw downloaded audio is 3 s
(3000 ms) with non-silent region [500, 2500], hence a post-silence-trim
duration of 2000 ms = 2 s. The offset applied to the second unit's word
timestamps is 3 (the raw duration of unit 1), not 2 (unit 1's trimmed
duration), so the cumulative offset is not the sum of trimmed durations. -/
theorem offset_uses_raw_duration_cex :
    trim_silence (.ok ⟨3000, [(500, 2500)]⟩) = some 2000 ∧
    segOffsets [⟨[⟨0, "w1", 0, 1⟩], some 3⟩, ⟨[⟨0, "w2", 0, 1⟩], some 3⟩] 0 =
      [0, 3] ∧
    buildOffsetGroups
        [⟨[⟨0, "w1", 0, 1⟩], some 3⟩, ⟨[⟨0, "w2", 0, 1⟩], some 3⟩] 0 0 =
      [[⟨0, "w1", 0, 1, 0⟩], [⟨0, "w2", 3, 4, 1⟩]] ∧
    (3 : ℚ) ≠ (2000 : ℚ) / 1000 := by
  refine ⟨rfl, ?_, ?_, by norm_num⟩
  · show [(0 : ℚ), 0 + segDur _] = [0, 3]
    norm_num [segDur]
  · show [offsetAyah 0 0 _, offsetAyah (0 + segDur _) 1 _] = _
    norm_num [segDur, offsetAyah]

/-- Claim C1 (amended): the cumulative offset added to unit i's word
timestamps equals the sum of the raw (untrimmed, non-negative-clamped)
downloaded durations of units 1..i-1 — the first unit's offset is 0 and
each unit advances the offset by its own raw duration; silence trimming
(performed later, inside audio concatenation) does not feed back into the
offsets. -/
theorem offset_is_sum_of_raw_durations (jobs : List AyahJob) (i : Nat)
    (hi : i < jobs.length) :
    (segOffsets jobs 0).get? i = some (((jobs.take i).map segDur).sum) ∧
    (buildOffsetGroups jobs 0 0).get? i =
      some (offsetAyah (((jobs.take i).map segDur).sum) i
        (jobs.get ⟨i, hi⟩).rawTs) := by
  constructor
  · rw [segOffsets_get? jobs 0 i hi]; ring_nf
  · rw [buildOffsetGroups_get? jobs 0 0 i hi]
    norm_num

/-- Claim C1 (amended) witness at a concrete two-unit batch. -/
theorem offset_is_sum_of_raw_durations_witness :
    (segOffsets [⟨[⟨0, "w1", 0, 1⟩], some 3⟩, ⟨[⟨0, "w2", 0, 1⟩], some 3⟩] 0).get? 1 =
      some ((([⟨[⟨0, "w1", 0, 1⟩], some 3⟩,
        ⟨[⟨0, "w2", 0, 1⟩], some 3⟩] : List AyahJob).take 1).map segDur).sum := by
  exact (offset_is_sum_of_raw_durations
    [⟨[⟨0, "w1", 0, 1⟩], some 3⟩, ⟨[⟨0, "w2", 0, 1⟩], some 3⟩] 1 (by decide)).1

/- ## Timing Resolver (quran_video_server_api/data_loader.py,
   get_arabic_text_and_timestamps) -/

/-- One entry of the fetched verse record's `words` list: the direct
per-word millisecond timestamps `timestamp_from`/`timestamp_to` (possibly
null) and the word text `text_uthmani` (possibly null). -/
structure WordData where
  timestamp_from : Option Int
  timestamp_to : Option Int
  text_uthmani : Option String
deriving DecidableEq

/-- A fetched verse record as consumed by `get_arabic_text_and_timestamps`:
the verse text, the words list, and `audio.segments` (each segment entry is
a list of integers; well-formed entries have exactly 4). -/
structure VerseData where
  text_uthmani : String
  words : List WordData
  segments : List (List Int)
deriving DecidableEq

/-- `has_direct_timestamps` (data_loader.py:89-93): some word carries both
non-null timestamp fields. -/
def hasDirectTimestamps (words : List WordData) : Bool :=
  words.any fun w => w.timestamp_from.isSome && w.timestamp_to.isSome

/-- The per-word extraction of the direct branch (data_loader.py:97-111):
a word yields a span only when `timestamp_from`, `timestamp_to` and
`text_uthmani` are all non-null; milliseconds are divided by 1000. -/
def directPick (p : Nat × WordData) : Option TsEntry :=
  match p.2.timestamp_from, p.2.timestamp_to, p.2.text_uthmani with
  | some s, some e, some t => some ⟨p.1, t, (s : ℚ) / 1000, (e : ℚ) / 1000⟩
  | _, _, _ => none

/-- The direct-timestamp branch: one pass over the enumerated words. -/
def directTimestamps (words : List WordData) : List TsEntry :=
  words.enum.filterMap directPick

/-- One step of building `word_index_to_timing` (data_loader.py:120-134):
a segment entry updates the map only when it has exactly 4 elements and a
non-negative word index; a repeated index overwrites the earlier value
(Python dict assignment). -/
def timingStep (m : Nat → Option (ℚ × ℚ)) (seg : List Int) :
    Nat → Option (ℚ × ℚ) :=
  match seg with
  | [wi, _, s, e] =>
    if 0 ≤ wi then
      fun k => if k = wi.toNat then some ((s : ℚ) / 1000, (e : ℚ) / 1000) else m k
    else m
  | _ => m

/-- `word_index_to_timing` after scanning all segment entries in order. -/
def buildTimingMap (segs : List (List Int)) : Nat → Option (ℚ × ℚ) :=
  segs.foldl timingStep fun _ => none

/-- The per-word lookup of the fallback branch (data_loader.py:137-150):
`if timing and word_text:` — the tuple is always truthy, but an empty
word text is falsy and the word is skipped. -/
def segmentPick (m : Nat → Option (ℚ × ℚ)) (p : Nat × WordData) :
    Option TsEntry :=
  match m p.1, p.2.text_uthmani with
  | some se, some t => if t ≠ "" then some ⟨p.1, t, se.1, se.2⟩ else none
  | _, _ => none

/-- The coarse-segment fallback branch of the Timing Resolver. -/
def segmentTimestamps (words : List WordData) (segs : List (List Int)) :
    List TsEntry :=
  words.enum.filterMap (segmentPick (buildTimingMap segs))

/-- `get_arabic_text_and_timestamps` (data_loader.py:69-165): empty words
list short-circuits; otherwise the direct branch is preferred whenever any
word has both timestamp fields, else the segment fallback runs (an absent
`segments` list simply yields no spans there). -/
def get_arabic_text_and_timestamps (v : VerseData) : String × List TsEntry :=
  if v.words.isEmpty then (v.text_uthmani, [])
  else if hasDirectTimestamps v.words then
    (v.text_uthmani, directTimestamps v.words)
  else
    (v.text_uthmani, segmentTimestamps v.words v.segments)

/- Helper lemmas for the Timing Resolver. -/

lemma enumFrom_map_comp_snd {α β : Type} (k : α → β) :
    ∀ (n : Nat) (ws : List α),
      (List.enumFrom n ws).map (fun p => k p.2) = ws.map k := by
  intro n ws
  induction ws generalizing n with
  | nil => rfl
  | cons w rest ih => simp [List.enumFrom, ih]

lemma directTimestamps_all_some :
    ∀ (n : Nat) (ws : List WordData),
      (∀ w ∈ ws, w.timestamp_from.isSome ∧ w.timestamp_to.isSome ∧
        w.text_uthmani.isSome) →
      (List.enumFrom n ws).filterMap directPick =
        (List.enumFrom n ws).map (fun p =>
          ⟨p.1, p.2.text_uthmani.getD "",
            ((p.2.timestamp_from.getD 0 : Int) : ℚ) / 1000,
            ((p.2.timestamp_to.getD 0 : Int) : ℚ) / 1000⟩) := by
  intro n ws
  induction ws generalizing n with
  | nil => intro _; rfl
  | cons w rest ih =>
    intro h
    obtain ⟨hf, ht, hx⟩ := h w (List.mem_cons_self w rest)
    obtain ⟨s, hs⟩ := Option.isSome_iff_exists.mp hf
    obtain ⟨e, he⟩ := Option.isSome_iff_exists.mp ht
    obtain ⟨t, hterm⟩ := Option.isSome_iff_exists.mp hx
    have hrest := ih (n + 1) fun w' hw' => h w' (List.mem_cons_of_mem w hw')
    simp [List.enumFrom, List.filterMap_cons, directPick, hs, he, hterm, hrest]

/-- Claim C7 counterexample: a verse record whose two words all carry
non-null direct timestamp fields (2000→3000 ms then 0→1000 ms) yields two
spans whose start times are 2 and 0 seconds — not non-decreasing, because
the resolver copies the source values without reordering. -/
theorem direct_timestamps_not_monotone_cex :
    ((get_arabic_text_and_timestamps
        ⟨"ab", [⟨some 2000, some 3000, some "a"⟩,
                ⟨some 0, some 1000, some "b"⟩], []⟩).2).map TsEntry.start_time =
      [2, 0] ∧
    ¬ List.Chain' (fun a b : ℚ => a ≤ b) [(2 : ℚ), 0] := by
  constructor
  · norm_num [get_arabic_text_and_timestamps, hasDirectTimestamps,
      directTimestamps, directPick, List.enum, List.enumFrom,
      List.filterMap_cons]
  · intro h
    have := List.chain'_cons.mp h
    norm_num at this

/-- Claim C7 (amended): for a verse record whose N words all carry non-null
`timestamp_from`, `timestamp_to` AND non-null `text_uthmani`, the resolver
takes the direct branch and returns exactly N spans whose times are the
source millisecond values divided by 1000; the start times are
non-decreasing provided the source `timestamp_from` values are
non-decreasing. -/
theorem direct_timestamps_amended (v : VerseData)
    (hall : ∀ w ∈ v.words, w.timestamp_from.isSome ∧ w.timestamp_to.isSome ∧
      w.text_uthmani.isSome) :
    (get_arabic_text_and_timestamps v).2 = directTimestamps v.words ∧
    (get_arabic_text_and_timestamps v).2.length = v.words.length ∧
    (get_arabic_text_and_timestamps v).2 = v.words.enum.map (fun p =>
      ⟨p.1, p.2.text_uthmani.getD "",
        ((p.2.timestamp_from.getD 0 : Int) : ℚ) / 1000,
        ((p.2.timestamp_to.getD 0 : Int) : ℚ) / 1000⟩) ∧
    (List.Chain' (fun a b : WordData =>
        a.timestamp_from.getD 0 ≤ b.timestamp_from.getD 0) v.words →
      List.Chain' (fun a b : TsEntry => a.start_time ≤ b.start_time)
        (get_arabic_text_and_timestamps v).2) := by
  have hbranch : (get_arabic_text_and_timestamps v).2 = directTimestamps v.words := by
    unfold get_arabic_text_and_timestamps
    cases hw : v.words with
    | nil => simp [hw, directTimestamps, List.enum]
    | cons w rest =>
      have hdir : hasDirectTimestamps v.words = true := by
        obtain ⟨hf, ht, _⟩ := hall w (by rw [hw]; exact List.mem_cons_self w rest)
        unfold hasDirectTimestamps
        rw [hw]
        simp only [List.any_cons, Bool.or_eq_true, Bool.and_eq_true]
        exact Or.inl ⟨hf, ht⟩
      simp [hw, hdir, hasDirectTimestamps] at *
      simp [hdir]
  have hmapeq : (get_arabic_text_and_timestamps v).2 = v.words.enum.map (fun p =>
      (⟨p.1, p.2.text_uthmani.getD "",
        ((p.2.timestamp_from.getD 0 : Int) : ℚ) / 1000,
        ((p.2.timestamp_to.getD 0 : Int) : ℚ) / 1000⟩ : TsEntry)) := by
    rw [hbranch]
    exact directTimestamps_all_some 0 v.words hall
  refine ⟨hbranch, ?_, hmapeq, ?_⟩
  · rw [hmapeq]
    simp [List.enum]
  · intro hmono
    have hstarts : ((get_arabic_text_and_timestamps v).2).map TsEntry.start_time =
        v.words.map (fun w => ((w.timestamp_from.getD 0 : Int) : ℚ) / 1000) := by
      rw [hmapeq, List.map_map]
      exact enumFrom_map_comp_snd
        (fun w => ((w.timestamp_from.getD 0 : Int) : ℚ) / 1000) 0 v.words
    have hchain : List.Chain' (fun a b : ℚ => a ≤ b)
        (((get_arabic_text_and_timestamps v).2).map TsEntry.start_time) := by
      rw [hstarts, List.chain'_map]
      refine List.Chain'.imp ?_ hmono
      intro a b hab
      have : ((a.timestamp_from.getD 0 : Int) : ℚ) ≤
          ((b.timestamp_from.getD 0 : Int) : ℚ) := by exact_mod_cast hab
      linarith
    exact (List.chain'_map TsEntry.start_time).mp hchain

/-- Claim C7 (amended) witness at a fully populated, source-sorted
two-word verse record. -/
theorem direct_timestamps_amended_witness :
    (get_arabic_text_and_timestamps
        ⟨"ab", [⟨some 0, some 1000, some "a"⟩,
                ⟨some 1000, some 2000, some "b"⟩], []⟩).2.length = 2 ∧
    List.Chain' (fun a b : TsEntry => a.start_time ≤ b.start_time)
      (get_arabic_text_and_timestamps
        ⟨"ab", [⟨some 0, some 1000, some "a"⟩,
                ⟨some 1000, some 2000, some "b"⟩], []⟩).2 := by
  have h := direct_timestamps_amended
    ⟨"ab", [⟨some 0, some 1000, some "a"⟩,
            ⟨some 1000, some 2000, some "b"⟩], []⟩
    (by intro w hw; fin_cases hw <;> simp)
  exact ⟨h.2.1, h.2.2.2 (by simp [List.chain'_cons])⟩

/- Helper lemmas for the segment fallback. -/

lemma timingStep_invalid (m : Nat → Option (ℚ × ℚ)) (seg : List Int)
    (h : ∀ wi x s e : Int, seg = [wi, x, s, e] → wi < 0) :
    timingStep m seg = m := by
  match seg with
  | [] => rfl
  | [a] => rfl
  | [a, b] => rfl
  | [a, b, c] => rfl
  | [a, b, c, d] =>
    have := h a b c d rfl
    simp [timingStep, not_le.mpr this]
  | a :: b :: c :: d :: e :: rest => rfl

lemma foldl_timingStep_untouched (k : Nat) :
    ∀ (post : List (List Int)),
      (∀ seg ∈ post, ∀ y x s e : Int, seg = [y, x, s, e] → 0 ≤ y →
        y.toNat ≠ k) →
      ∀ m : Nat → Option (ℚ × ℚ), post.foldl timingStep m k = m k := by
  intro post
  induction post with
  | nil => intro _ m; rfl
  | cons seg rest ih =>
    intro h m
    have hrest := ih fun s hs => h s (List.mem_cons_of_mem seg hs)
    rw [List.foldl_cons, hrest]
    rcases seg with _ | ⟨a, _ | ⟨b, _ | ⟨c, _ | ⟨d, _ | ⟨e2, rest2⟩⟩⟩⟩⟩
    · rfl
    · rfl
    · rfl
    · rfl
    · by_cases ha : 0 ≤ a
      · have hne := h [a, b, c, d] (List.mem_cons_self _ rest) a b c d rfl ha
        simp [timingStep, ha, Ne.symm hne]
      · simp [timingStep, ha]
    · rfl

lemma segmentPick_word_index (m : Nat → Option (ℚ × ℚ)) (p : Nat × WordData)
    (ent : TsEntry) (h : segmentPick m p = some ent) : ent.word_index = p.1 := by
  unfold segmentPick at h
  rcases hm : m p.1 with _ | se <;> rw [hm] at h
  · simp at h
  · rcases ht : p.2.text_uthmani with _ | t <;> rw [ht] at h
    · simp at h
    · by_cases h0 : t = ""
      · simp [h0] at h
      · simp [h0] at h
        rw [← h]

lemma segmentPick_mem_bounds (m : Nat → Option (ℚ × ℚ)) :
    ∀ (n : Nat) (ws : List WordData),
      ∀ ent ∈ (List.enumFrom n ws).filterMap (segmentPick m),
        n ≤ ent.word_index ∧ ent.word_index < n + ws.length := by
  intro n ws
  induction ws generalizing n with
  | nil => intro ent hent; simp [List.enumFrom] at hent
  | cons w rest ih =>
    intro ent hent
    simp only [List.enumFrom, List.filterMap_cons] at hent
    have hbounds : ∀ ent' ∈ (List.enumFrom (n + 1) rest).filterMap (segmentPick m),
        n + 1 ≤ ent'.word_index ∧ ent'.word_index < n + 1 + rest.length :=
      ih (n + 1)
    rcases hpick : segmentPick m (n, w) with _ | ent0
    · rw [hpick] at hent
      obtain ⟨h1, h2⟩ := hbounds ent hent
      exact ⟨by omega, by simp only [List.length_cons]; omega⟩
    · rw [hpick] at hent
      rcases List.mem_cons.mp hent with rfl | hent'
      · have hidx : ent.word_index = n := segmentPick_word_index m (n, w) ent hpick
        exact ⟨by omega, by simp only [List.length_cons]; omega⟩
      · obtain ⟨h1, h2⟩ := hbounds ent hent'
        exact ⟨by omega, by simp only [List.length_cons]; omega⟩

lemma segmentPick_indices_increasing (m : Nat → Option (ℚ × ℚ)) :
    ∀ (n : Nat) (ws : List WordData),
      List.Pairwise (fun a b : TsEntry => a.word_index < b.word_index)
        ((List.enumFrom n ws).filterMap (segmentPick m)) := by
  intro n ws
  induction ws generalizing n with
  | nil => simp [List.enumFrom]
  | cons w rest ih =>
    simp only [List.enumFrom, List.filterMap_cons]
    rcases hpick : segmentPick m (n, w) with _ | ent0
    · exact ih (n + 1)
    · refine List.Pairwise.cons ?_ (ih (n + 1))
      intro ent' hent'
      have hidx : ent0.word_index = n := segmentPick_word_index m (n, w) ent0 hpick
      have := (segmentPick_mem_bounds m (n + 1) rest ent' hent').1
      omega

/-- Claim C8 counterexample: with one reference word and two well-formed
segment entries both declaring word index 0 (0→1000 ms, then 0→3000 ms),
the resolver keeps the LAST-seen timing (start 3 s), not the first-seen
one (start 1 s). -/
theorem segment_duplicate_keeps_last_cex :
    (get_arabic_text_and_timestamps
        ⟨"a", [⟨none, none, some "a"⟩],
         [[0, 0, 1000, 2000], [0, 0, 3000, 4000]]⟩).2 =
      [⟨0, "a", 3, 4⟩] ∧
    (3 : ℚ) ≠ 1 := by
  constructor
  · norm_num [get_arabic_text_and_timestamps, hasDirectTimestamps,
      segmentTimestamps, segmentPick, buildTimingMap, timingStep,
      List.enum, List.enumFrom, List.filterMap_cons]
    rfl
  · norm_num

/-- Claim C8 (amended): in the coarse-segment fallback, a segment entry
that is not a 4-element list or has a negative word index is skipped
(leaves the timing map unchanged, no exception — out-of-range indices are
likewise harmless since only indices of existing words are ever looked
up); at most one span is emitted per reference word, every emitted span's
word index is in range; and for a duplicated word index the LAST-seen
timing wins, not the first-seen one. -/
theorem segment_fallback_amended (words : List WordData)
    (segs : List (List Int)) :
    List.Pairwise (fun a b : TsEntry => a.word_index < b.word_index)
      (segmentTimestamps words segs) ∧
    (∀ ent ∈ segmentTimestamps words segs, ent.word_index < words.length) ∧
    (∀ seg : List Int, (∀ wi x s e : Int, seg = [wi, x, s, e] → wi < 0) →
      ∀ k, buildTimingMap (segs ++ [seg]) k = buildTimingMap segs k) ∧
    (∀ pre post : List (List Int), ∀ wi x s e : Int, 0 ≤ wi →
      (∀ seg ∈ post, ∀ y x2 s2 e2 : Int, seg = [y, x2, s2, e2] → 0 ≤ y →
        y.toNat ≠ wi.toNat) →
      buildTimingMap (pre ++ ([wi, x, s, e] : List Int) :: post) wi.toNat =
        some ((s : ℚ) / 1000, (e : ℚ) / 1000)) := by
  refine ⟨segmentPick_indices_increasing _ 0 words, ?_, ?_, ?_⟩
  · intro ent hent
    have := (segmentPick_mem_bounds (buildTimingMap segs) 0 words ent hent).2
    simpa using this
  · intro seg hseg k
    unfold buildTimingMap
    rw [List.foldl_append, List.foldl_cons, List.foldl_nil,
      timingStep_invalid _ seg hseg]
  · intro pre post wi x s e hwi hpost
    unfold buildTimingMap
    rw [List.foldl_append, List.foldl_cons,
      foldl_timingStep_untouched wi.toNat post hpost]
    simp [timingStep, hwi]

/-- Claim C8 (amended) witness at the duplicated-index record: the second
entry's timing is the one returned. -/
theorem segment_fallback_amended_witness :
    buildTimingMap ([[0, 0, 1000, 2000]] ++ ([0, 0, 3000, 4000] : List Int) :: [])
        (0 : Int).toNat =
      some (((3000 : Int) : ℚ) / 1000, ((4000 : Int) : ℚ) / 1000) := by
  exact (segment_fallback_amended [⟨none, none, some "a"⟩] [[0, 0, 1000, 2000]]).2.2.2
    [[0, 0, 1000, 2000]] [] 0 0 3000 4000 (by norm_num) (by simp)

/- ## Word Aligner: proportional distribution
   (transcribe_quran/transcribe_quran.py, distribute_time_proportionally) -/

/-- A word after proportional timestamp distribution. The Python function
carries whole dicts through `{**w, ...}`; only the `text` key (possibly
absent, `w.get('text', '')`) and the two assigned time keys matter here. -/
structure TimedPWord where
  text : Option String
  start_time : ℚ
  end_time : ℚ
deriving DecidableEq

/-- `len(w.get('text', ''))`. -/
def pwordLen (t : Option String) : Nat := (t.getD "").length

/-- The assignment loop (transcribe_quran.py:38-44): each word gets
`word_len * duration_per_char` starting at the running `current_time`. -/
def distributeGo (durPerChar : ℚ) : ℚ → List (Option String) → List TimedPWord
  | _, [] => []
  | cur, t :: rest =>
    ⟨t, cur, cur + (pwordLen t : ℚ) * durPerChar⟩ ::
      distributeGo durPerChar (cur + (pwordLen t : ℚ) * durPerChar) rest

/-- `distribute_time_proportionally` (transcribe_quran.py:31-45): empty
input yields `[]`; total character length 0 assigns every word the full
interval; otherwise time is distributed consecutively in proportion to
character length. -/
def distribute_time_proportionally (words : List (Option String))
    (startT endT : ℚ) : List TimedPWord :=
  if words.isEmpty then []
  else if (words.map pwordLen).sum = 0 then
    words.map fun t => ⟨t, startT, endT⟩
  else
    distributeGo ((endT - startT) / (((words.map pwordLen).sum : Nat) : ℚ))
      startT words

/- Helper lemmas for proportional distribution. -/

lemma distributeGo_map_text (dpc : ℚ) :
    ∀ (l : List (Option String)) (cur : ℚ),
      (distributeGo dpc cur l).map TimedPWord.text = l := by
  intro l
  induction l with
  | nil => intro cur; rfl
  | cons t rest ih => intro cur; simp [distributeGo, ih]

lemma distributeGo_map_durations (dpc : ℚ) :
    ∀ (l : List (Option String)) (cur : ℚ),
      (distributeGo dpc cur l).map (fun w => w.end_time - w.start_time) =
        l.map fun t => (pwordLen t : ℚ) * dpc := by
  intro l
  induction l with
  | nil => intro cur; rfl
  | cons t rest ih =>
    intro cur
    simp only [distributeGo, List.map_cons, ih]
    congr 1
    ring

lemma distributeGo_head? (dpc cur : ℚ) (l : List (Option String)) :
    (distributeGo dpc cur l).head? =
      l.head?.map fun t => ⟨t, cur, cur + (pwordLen t : ℚ) * dpc⟩ := by
  cases l <;> rfl

lemma distributeGo_chain (dpc : ℚ) :
    ∀ (l : List (Option String)) (cur : ℚ),
      List.Chain' (fun a b => a.end_time = b.start_time)
        (distributeGo dpc cur l) := by
  intro l
  induction l with
  | nil => intro cur; simp [distributeGo]
  | cons t rest ih =>
    intro cur
    simp only [distributeGo]
    refine List.chain'_cons'.mpr ⟨?_, ih _⟩
    intro y hy
    rw [distributeGo_head?] at hy
    rcases rest with _ | ⟨t2, rest2⟩
    · simp at hy
    · simp only [List.head?_cons, Option.map_some] at hy
      rw [← Option.some_inj.mp hy]

lemma sum_len_mul (dpc : ℚ) :
    ∀ (l : List (Option String)),
      (l.map fun t => (pwordLen t : ℚ) * dpc).sum =
        (((l.map pwordLen).sum : Nat) : ℚ) * dpc := by
  intro l
  induction l with
  | nil => simp
  | cons t rest ih =>
    simp only [List.map_cons, List.sum_cons, ih]
    push_cast
    ring

lemma distributeGo_nonneg (dpc : ℚ) (hdpc : 0 ≤ dpc) :
    ∀ (l : List (Option String)) (cur : ℚ), ∀ w ∈ distributeGo dpc cur l,
      w.start_time ≤ w.end_time := by
  intro l
  induction l with
  | nil => intro cur w hw; simp [distributeGo] at hw
  | cons t rest ih =>
    intro cur w hw
    simp only [distributeGo, List.mem_cons] at hw
    rcases hw with rfl | hw
    · have : (0 : ℚ) ≤ (pwordLen t : ℚ) * dpc :=
        mul_nonneg (Nat.cast_nonneg _) hdpc
      simp only
      linarith
    · exact ih _ w hw

/-- Claim C6: for a non-empty word group with positive total character
length distributed over [T0, T1], the produced durations sum exactly to
T1 − T0, the spans are contiguous (the first starts at T0 and each
subsequent word starts where the previous ends) and non-overlapping
(durations non-negative when T0 ≤ T1), and the word order is preserved;
when the total character length is 0, every word is assigned the full
[T0, T1] span. -/
theorem distribute_time_proportionally_spec (words : List (Option String))
    (startT endT : ℚ) :
    (words ≠ [] → (words.map pwordLen).sum ≠ 0 →
      ((distribute_time_proportionally words startT endT).map
          (fun w => w.end_time - w.start_time)).sum = endT - startT ∧
      (distribute_time_proportionally words startT endT).head?.map
        TimedPWord.start_time = some startT ∧
      List.Chain' (fun a b => a.end_time = b.start_time)
        (distribute_time_proportionally words startT endT) ∧
      (startT ≤ endT → ∀ w ∈ distribute_time_proportionally words startT endT,
        w.start_time ≤ w.end_time) ∧
      (distribute_time_proportionally words startT endT).map TimedPWord.text =
        words) ∧
    ((words.map pwordLen).sum = 0 →
      distribute_time_proportionally words startT endT =
        words.map fun t => ⟨t, startT, endT⟩) := by
  constructor
  · intro hne hsum
    have hempty : words.isEmpty = false := by
      cases words
      · exact absurd rfl hne
      · rfl
    have hS : (((words.map pwordLen).sum : Nat) : ℚ) ≠ 0 := by
      exact_mod_cast hsum
    have hdef : distribute_time_proportionally words startT endT =
        distributeGo ((endT - startT) / (((words.map pwordLen).sum : Nat) : ℚ))
          startT words := by
      unfold distribute_time_proportionally
      simp [hempty, hsum]
    set dpc : ℚ :=
      (endT - startT) / (((words.map pwordLen).sum : Nat) : ℚ) with hdpc
    refine ⟨?_, ?_, ?_, ?_, ?_⟩
    · rw [hdef, distributeGo_map_durations, sum_len_mul, hdpc]
      rw [← mul_div_assoc, mul_comm, mul_div_assoc, div_self hS, mul_one]
    · rw [hdef, distributeGo_head?]
      cases words
      · exact absurd rfl hne
      · simp
    · rw [hdef]; exact distributeGo_chain dpc words startT
    · intro hle w hw
      rw [hdef] at hw
      have hdpc_nonneg : 0 ≤ dpc := by
        rw [hdpc]
        apply div_nonneg (by linarith)
        exact_mod_cast Nat.zero_le _
      exact distributeGo_nonneg dpc hdpc_nonneg words startT w hw
    · rw [hdef]; exact distributeGo_map_text dpc words startT
  · intro hsum
    unfold distribute_time_proportionally
    rcases words with _ | ⟨t, rest⟩
    · rfl
    · rw [if_neg (by simp), if_pos hsum]

/-- Claim C6 witness: words of length 2 and 1 over [0, 3] get spans
[0, 2] and [2, 3]; the zero-length case assigns the full interval. -/
theorem distribute_time_proportionally_spec_witness :
    ((distribute_time_proportionally [some "ab", some "c"] 0 3).map
        (fun w => w.end_time - w.start_time)).sum = 3 - 0 ∧
    (distribute_time_proportionally [some "ab", some "c"] 0 3).map
      TimedPWord.text = [some "ab", some "c"] ∧
    distribute_time_proportionally [some "", some ""] 0 3 =
      [⟨some "", 0, 3⟩, ⟨some "", 0, 3⟩] := by
  have h1 := (distribute_time_proportionally_spec [some "ab", some "c"] 0 3).1
    (by decide) (by decide)
  have h2 := (distribute_time_proportionally_spec [some "", some ""] 0 3).2
    (by decide)
  exact ⟨h1.1, h1.2.2.2.2, by rw [h2]; rfl⟩

/- ## Caption Window Grouper (quran_video_processor.py,
   process_video_with_subtitles, lines 187-299) -/

/-- One entry of `all_words`: a word with its (non-null) start and end
times. -/
structure CapWord where
  text : String
  start_time : ℚ
  end_time : ℚ
deriving DecidableEq

/-- One rendered caption group: the accumulated word texts, the group's
start (`current_group_start_time`), its natural end
(`current_group_end_time` at close, i.e. the last accumulated word's end),
the clip end (`clip_end_time`), the clip duration (`clip_duration`), and
the inclusive range of consumed word indices. -/
structure DisplayWindow where
  texts : List String
  startTime : ℚ
  naturalEnd : ℚ
  endTime : ℚ
  duration : ℚ
  firstIdx : Nat
  lastIdx : Nat
deriving DecidableEq

/-- Index (within the remaining words) of the word that closes the current
group: the inner loop closes at the first word where
`current_group_actual_duration >= min_display_duration_s` or at the last
word overall (quran_video_processor.py:205-208). -/
def closeIdx (startT minDur : ℚ) : List CapWord → Nat
  | [] => 0
  | w :: ws =>
    if ws.isEmpty then 0
    else if minDur ≤ w.end_time - startT then 0
    else closeIdx startT minDur ws + 1

/-- The outer `while word_idx < num_words` loop
(quran_video_processor.py:190-299), written with the remaining word list as
state. Each iteration closes one group at offset `closeIdx`, emits its
window (computing `suggested_clip_end`, `next_word_start_time` —
`float('inf')` when no word follows, modelled by omitting the `min` —
`clip_end_time` and `clip_duration = max(0, ...)`), and continues past the
consumed words. The `fuel` argument only bounds the recursion; since every
iteration consumes at least one word, `fuel = number of words` never runs
out (the Python for-else stall guard at line 295-299 is likewise
unreachable because the last word always closes the group). -/
def groupWordsAux (minDur : ℚ) : Nat → Nat → List CapWord → List DisplayWindow
  | 0, _, _ => []
  | _ + 1, _, [] => []
  | fuel + 1, base, w :: rest =>
    let ws := w :: rest
    let k := closeIdx w.start_time minDur ws
    let naturalEnd := ((ws.get? k).getD w).end_time
    let tail := ws.drop (k + 1)
    let suggested := max naturalEnd (w.start_time + minDur)
    let clipEnd := match tail.head? with
      | none => suggested
      | some nw => min suggested nw.start_time
    ⟨(ws.take (k + 1)).map CapWord.text, w.start_time, naturalEnd, clipEnd,
      max 0 (clipEnd - w.start_time), base, base + k⟩ ::
      groupWordsAux minDur fuel (base + k + 1) tail

/-- The Caption Window Grouper on a full word list. -/
def groupWords (minDur : ℚ) (ws : List CapWord) : List DisplayWindow :=
  groupWordsAux minDur ws.length 0 ws

/- Helper lemmas for the grouper. -/

lemma closeIdx_lt (startT minDur : ℚ) :
    ∀ (ws : List CapWord), ws ≠ [] → closeIdx startT minDur ws < ws.length := by
  intro ws
  induction ws with
  | nil => intro h; exact absurd rfl h
  | cons w rest ih =>
    intro _
    unfold closeIdx
    rcases rest with _ | ⟨w2, rest2⟩
    · simp
    · by_cases hd : minDur ≤ w.end_time - startT
      · simp [hd]
      · have hlt := ih (by simp)
        simp only [List.length_cons] at hlt
        simp only [List.length_cons]
        simp [hd]
        omega

lemma groupWordsAux_nil (minDur : ℚ) (fuel base : Nat) :
    groupWordsAux minDur fuel base [] = [] := by
  cases fuel <;> rfl

lemma groupWordsAux_ne_nil (minDur : ℚ) (fuel base : Nat) (w : CapWord)
    (rest : List CapWord) (hf : 0 < fuel) :
    groupWordsAux minDur fuel base (w :: rest) ≠ [] := by
  cases fuel
  · omega
  · simp [groupWordsAux]

lemma groupWordsAux_head_start (minDur : ℚ) (fuel base : Nat) (w : CapWord)
    (rest : List CapWord) (hf : 0 < fuel) :
    (groupWordsAux minDur fuel base (w :: rest)).head?.map
      DisplayWindow.startTime = some w.start_time := by
  cases fuel
  · omega
  · simp [groupWordsAux]

lemma groupWordsAux_indices (minDur : ℚ) :
    ∀ (fuel : Nat) (ws : List CapWord) (base : Nat), ws.length ≤ fuel →
      (groupWordsAux minDur fuel base ws).flatMap
          (fun W => List.range' W.firstIdx (W.lastIdx + 1 - W.firstIdx)) =
        List.range' base ws.length := by
  intro fuel
  induction fuel with
  | zero =>
    intro ws base hlen
    have : ws = [] := List.length_eq_zero.mp (by omega)
    subst this
    rfl
  | succ fuel ih =>
    intro ws base hlen
    rcases ws with _ | ⟨w, rest⟩
    · rfl
    · have hk : closeIdx w.start_time minDur (w :: rest) < (w :: rest).length :=
        closeIdx_lt w.start_time minDur (w :: rest) (by simp)
      simp only [groupWordsAux, List.flatMap_cons]
      set k := closeIdx w.start_time minDur (w :: rest) with hkdef
      have htail_len : ((w :: rest).drop (k + 1)).length =
          (w :: rest).length - (k + 1) := by
        simp [List.length_drop]
      have hrec := ih ((w :: rest).drop (k + 1)) (base + k + 1)
        (by simp only [htail_len]; simp at hlen ⊢; omega)
      rw [hrec, htail_len]
      have h1 : base + k + 1 - base = k + 1 := by omega
      rw [h1]
      have h2 : base + k + 1 = base + (k + 1) := by omega
      rw [h2, List.range'_append_1]
      congr 1
      simp only [List.length_cons] at hk ⊢
      omega

lemma drop_head?_get? {α : Type} :
    ∀ (l : List α) (n : Nat), (l.drop n).head? = l.get? n := by
  intro l
  induction l with
  | nil => intro n; simp
  | cons x xs ih =>
    intro n
    cases n with
    | zero => rfl
    | succ m => exact ih m

lemma chain'_get?_rel {α : Type} {R : α → α → Prop} :
    ∀ (l : List α), List.Chain' R l → ∀ (i : Nat) (a b : α),
      l.get? i = some a → l.get? (i + 1) = some b → R a b := by
  intro l
  induction l with
  | nil => intro _ i a b ha; simp at ha
  | cons x xs ih =>
    intro hchain i a b ha hb
    obtain ⟨hhead, htail⟩ := List.chain'_cons'.mp hchain
    cases i with
    | zero =>
      simp only [List.get?_cons_zero, Option.some_inj] at ha
      subst ha
      simp only [List.get?_cons_succ] at hb
      have hxb : xs.head? = some b := by
        rcases xs with _ | ⟨y, ys⟩
        · simp at hb
        · simpa using hb
      exact hhead b hxb
    | succ j =>
      simp only [List.get?_cons_succ] at ha hb
      exact ih htail j a b ha hb

lemma groupWordsAux_chain_formula (minDur : ℚ) :
    ∀ (fuel : Nat) (ws : List CapWord) (base : Nat), ws.length ≤ fuel →
      List.Chain' (fun a b => a.endTime =
        min (max a.naturalEnd (a.startTime + minDur)) b.startTime)
        (groupWordsAux minDur fuel base ws) := by
  intro fuel
  induction fuel with
  | zero =>
    intro ws base hlen
    have : ws = [] := List.length_eq_zero.mp (by omega)
    subst this
    simp [groupWordsAux]
  | succ fuel ih =>
    intro ws base hlen
    rcases ws with _ | ⟨w, rest⟩
    · simp [groupWordsAux]
    · simp only [groupWordsAux]
      set k := closeIdx w.start_time minDur (w :: rest) with hkdef
      refine List.chain'_cons'.mpr ⟨?_, ih _ _ ?_⟩
      · intro y hy
        rcases htail : (w :: rest).drop (k + 1) with _ | ⟨t0, tail2⟩
        · rw [htail, groupWordsAux_nil] at hy
          simp at hy
        · rw [htail] at hy
          have hf : 0 < fuel := by
            have hlen2 := congrArg List.length htail
            simp only [List.length_drop, List.length_cons] at hlen2
            simp only [List.length_cons] at hlen
            omega
          have hhead := groupWordsAux_head_start minDur fuel (base + k + 1)
            t0 tail2 hf
          have hy' : (groupWordsAux minDur fuel (base + k + 1)
              (t0 :: tail2)).head? = some y := hy
          rw [hy'] at hhead
          simp at hhead
          simp only [htail, List.head?_cons]
          rw [hhead]
      · simp only [List.length_drop, List.length_cons] at hlen ⊢
        omega

lemma groupWordsAux_getLast (minDur : ℚ) :
    ∀ (fuel : Nat) (ws : List CapWord) (base : Nat), ws.length ≤ fuel →
      ∀ W, (groupWordsAux minDur fuel base ws).getLast? = some W →
        W.endTime = max W.naturalEnd (W.startTime + minDur) := by
  intro fuel
  induction fuel with
  | zero =>
    intro ws base hlen W hW
    have : ws = [] := List.length_eq_zero.mp (by omega)
    subst this
    simp [groupWordsAux] at hW
  | succ fuel ih =>
    intro ws base hlen W hW
    rcases ws with _ | ⟨w, rest⟩
    · simp [groupWordsAux] at hW
    · simp only [groupWordsAux] at hW
      set k := closeIdx w.start_time minDur (w :: rest) with hkdef
      rcases htail : (w :: rest).drop (k + 1) with _ | ⟨t0, tail2⟩
      · rw [htail, groupWordsAux_nil] at hW
        simp only [List.getLast?_singleton, Option.some_inj] at hW
        subst hW
        simp [htail]
      · rw [htail] at hW
        have hf : 0 < fuel := by
          have hlen2 := congrArg List.length htail
          simp only [List.length_drop, List.length_cons] at hlen2
          simp only [List.length_cons] at hlen
          omega
        rcases hrec : groupWordsAux minDur fuel (base + k + 1) (t0 :: tail2)
          with _ | ⟨r0, rrest⟩
        · exact absurd hrec
            (groupWordsAux_ne_nil minDur fuel (base + k + 1) t0 tail2 hf)
        · rw [hrec, List.getLast?_cons_cons] at hW
          have hlen3 : (t0 :: tail2).length ≤ fuel := by
            have hlen2 := congrArg List.length htail
            simp only [List.length_drop, List.length_cons] at hlen2
            simp only [List.length_cons] at hlen ⊢
            omega
          exact ih (t0 :: tail2) (base + k + 1) hlen3 W (by rw [hrec]; exact hW)

lemma groupWordsAux_duration (minDur : ℚ) :
    ∀ (fuel : Nat) (ws : List CapWord) (base : Nat),
      ∀ W ∈ groupWordsAux minDur fuel base ws,
        W.duration = max 0 (W.endTime - W.startTime) := by
  intro fuel
  induction fuel with
  | zero => intro ws base W hW; simp [groupWordsAux] at hW
  | succ fuel ih =>
    intro ws base W hW
    rcases ws with _ | ⟨w, rest⟩
    · simp [groupWordsAux] at hW
    · simp only [groupWordsAux, List.mem_cons] at hW
      rcases hW with rfl | hW
      · rfl
      · exact ih _ _ W hW

lemma groupWordsAux_natEnd_le (minDur : ℚ) :
    ∀ (fuel : Nat) (ws : List CapWord) (base : Nat), ws.length ≤ fuel →
      List.Chain' (fun a b : CapWord => a.end_time ≤ b.start_time) ws →
      ∀ W ∈ groupWordsAux minDur fuel base ws, W.naturalEnd ≤ W.endTime := by
  intro fuel
  induction fuel with
  | zero => intro ws base _ _ W hW; simp [groupWordsAux] at hW
  | succ fuel ih =>
    intro ws base hlen hchain W hW
    rcases ws with _ | ⟨w, rest⟩
    · simp [groupWordsAux] at hW
    · simp only [groupWordsAux, List.mem_cons] at hW
      set k := closeIdx w.start_time minDur (w :: rest) with hkdef
      rcases hW with rfl | hW
      · rcases htail : (w :: rest).drop (k + 1) with _ | ⟨t0, tail2⟩
        · simp only [htail, List.head?_nil]
          exact le_max_left _ _
        · have hk : k < (w :: rest).length :=
            closeIdx_lt w.start_time minDur (w :: rest) (by simp)
          rcases hget : (w :: rest).get? k with _ | wk
          · rw [List.get?_eq_none] at hget
            omega
          · have hget1 : (w :: rest).get? (k + 1) = some t0 := by
              rw [← drop_head?_get?, htail]
              rfl
            have hrel : wk.end_time ≤ t0.start_time :=
              chain'_get?_rel (w :: rest) hchain k wk t0 hget hget1
            simp only [htail, List.head?_cons, hget]
            exact le_min (by simp [le_max_left]) (by simpa using hrel)
      · have hlen3 : ((w :: rest).drop (k + 1)).length ≤ fuel := by
          simp only [List.length_drop, List.length_cons] at hlen ⊢
          omega
        exact ih _ _ hlen3 (hchain.drop (k + 1)) W hW

/-- Claim C4: for every start-time-sorted input and every minimum display
duration, the grouper's windows are ordered with
`window[i].end_time <= window[i+1].start_time` (each clip end is clamped to
the next word's start, which is the next window's start), and the windows'
word-index ranges partition the input indices: their concatenation is
exactly `[0, ..., n-1]`, so every word belongs to exactly one window. -/
theorem caption_windows_partition (minDur : ℚ) (ws : List CapWord)
    (_hsorted : List.Chain' (fun a b : CapWord => a.start_time ≤ b.start_time)
      ws) :
    List.Chain' (fun a b => a.endTime ≤ b.startTime) (groupWords minDur ws) ∧
    (groupWords minDur ws).flatMap
        (fun W => List.range' W.firstIdx (W.lastIdx + 1 - W.firstIdx)) =
      List.range' 0 ws.length := by
  constructor
  · have h := groupWordsAux_chain_formula minDur ws.length ws 0 le_rfl
    exact List.Chain'.imp
      (fun a b hab => by rw [hab]; exact min_le_right _ _) h
  · exact groupWordsAux_indices minDur ws.length ws 0 le_rfl

/-- Claim C4 witness: two words grouped into one window covering indices
0 and 1. -/
theorem caption_windows_partition_witness :
    List.Chain' (fun a b : CapWord => a.start_time ≤ b.start_time)
      [⟨"a", 0, 1⟩, ⟨"b", 1, 2⟩] ∧
    (groupWords 2 [⟨"a", 0, 1⟩, ⟨"b", 1, 2⟩]).flatMap
        (fun W => List.range' W.firstIdx (W.lastIdx + 1 - W.firstIdx)) =
      List.range' 0 2 := by
  have hs : List.Chain' (fun a b : CapWord => a.start_time ≤ b.start_time)
      [⟨"a", 0, 1⟩, ⟨"b", 1, 2⟩] := by
    norm_num [List.chain'_cons, List.chain'_singleton]
  exact ⟨hs, (caption_windows_partition 2 _ hs).2⟩

/-- Claim C5 counterexample: for the start-time-sorted words
(0, 5) and (1, 2) with minimum display duration 1, the first group closes
with natural end 5, but its window end time is clipped to the next word's
start 1 < 5: the window DOES shrink below the natural coverage of its
words, contradicting the claim's "never shrinks below the natural
coverage" conjunct. -/
theorem caption_window_shrinks_cex :
    List.Chain' (fun a b : CapWord => a.start_time ≤ b.start_time)
      [⟨"w1", 0, 5⟩, ⟨"w2", 1, 2⟩] ∧
    (groupWords 1 [⟨"w1", 0, 5⟩, ⟨"w2", 1, 2⟩]).head?.map
        (fun W => (W.naturalEnd, W.endTime)) = some (5, 1) ∧
    ¬ ((5 : ℚ) ≤ 1) := by
  refine ⟨by norm_num [List.chain'_cons, List.chain'_singleton], ?_,
    by norm_num⟩
  norm_num [groupWords, groupWordsAux, closeIdx]

/-- Claim C5 (amended): every closed window's end time equals
min(max(natural end, group start + minimum duration), next word's start
time) when a next word exists and max(natural end, group start + minimum
duration) for the last window (`float('inf')` in the source); the duration
is `max(0, end - start)`, hence non-negative; and the end time never
shrinks below the natural coverage of the group's words PROVIDED the input
spans are sequentially non-overlapping (each word's end ≤ the next word's
start) — for merely start-sorted inputs the clip at the next word's start
can cut below the natural end. -/
theorem caption_window_end_time (minDur : ℚ) (ws : List CapWord) :
    List.Chain' (fun a b => a.endTime =
      min (max a.naturalEnd (a.startTime + minDur)) b.startTime)
      (groupWords minDur ws) ∧
    (∀ W, (groupWords minDur ws).getLast? = some W →
      W.endTime = max W.naturalEnd (W.startTime + minDur)) ∧
    (∀ W ∈ groupWords minDur ws,
      W.duration = max 0 (W.endTime - W.startTime) ∧ 0 ≤ W.duration) ∧
    (List.Chain' (fun a b : CapWord => a.end_time ≤ b.start_time) ws →
      ∀ W ∈ groupWords minDur ws, W.naturalEnd ≤ W.endTime) := by
  refine ⟨groupWordsAux_chain_formula minDur ws.length ws 0 le_rfl,
    fun W hW => groupWordsAux_getLast minDur ws.length ws 0 le_rfl W hW,
    fun W hW => ⟨groupWordsAux_duration minDur ws.length ws 0 W hW, ?_⟩,
    fun hchain W hW =>
      groupWordsAux_natEnd_le minDur ws.length ws 0 le_rfl hchain W hW⟩
  rw [groupWordsAux_duration minDur ws.length ws 0 W hW]
  exact le_max_left _ _

/-- Claim C5 (amended) witness: for non-overlapping words (0, 1), (2, 3)
with minimum duration 2, the single window is
(start 0, natural end 3, end 3, duration 3). -/
theorem caption_window_end_time_witness :
    (groupWords 2 [⟨"a", 0, 1⟩, ⟨"b", 2, 3⟩]).getLast? =
      some ⟨["a", "b"], 0, 3, 3, 3, 0, 1⟩ ∧
    (3 : ℚ) = max (3 : ℚ) (0 + 2) ∧
    (3 : ℚ) = max 0 ((3 : ℚ) - 0) ∧
    (3 : ℚ) ≤ 3 := by
  have hg : groupWords 2 [⟨"a", 0, 1⟩, ⟨"b", 2, 3⟩] =
      [⟨["a", "b"], 0, 3, 3, 3, 0, 1⟩] := by
    norm_num [groupWords, groupWordsAux, closeIdx]
  have h := caption_window_end_time 2 [⟨"a", 0, 1⟩, ⟨"b", 2, 3⟩]
  have hW : (⟨["a", "b"], 0, 3, 3, 3, 0, 1⟩ : DisplayWindow) ∈
      groupWords 2 [⟨"a", 0, 1⟩, ⟨"b", 2, 3⟩] := by
    rw [hg]
    exact List.mem_singleton.mpr rfl
  refine ⟨by rw [hg]; rfl, ?_, ?_, ?_⟩
  · exact h.2.1 ⟨["a", "b"], 0, 3, 3, 3, 0, 1⟩ (by rw [hg]; rfl)
  · exact (h.2.2.1 _ hW).1
  · have hch : List.Chain' (fun a b : CapWord => a.end_time ≤ b.start_time)
        [⟨"a", 0, 1⟩, ⟨"b", 2, 3⟩] := by
      norm_num [List.chain'_cons, List.chain'_singleton]
    exact h.2.2.2 hch _ hW

/- ## Range Detector (transcribe_quran/transcribe_quran.py,
   find_best_quran_segment_match, lines 62-129)

   The generic diff machinery (`difflib.SequenceMatcher`:
   `find_longest_match` and the matched-substring `ratio()`), the Unicode
   normalizer and the ayah-text cache are external collaborators here;
   they enter the embedding as function parameters (`flm`, `ratioFn`,
   `normalizeF`, `catalog`, `ayahCount` for `SURAH_AYAHS_COUNT`). -/

/-- `difflib.SequenceMatcher.find_longest_match` result:
`(a, b, size)` offsets into the two strings. -/
structure DiffMatch where
  a : Nat
  b : Nat
  size : Nat
deriving DecidableEq

/-- Python `s[a : a + n]` on character positions. -/
def strSlice (s : String) (a n : Nat) : String :=
  String.mk ((s.toList.drop a).take n)

/-- Python `s.split()`: split on whitespace runs and drop empty chunks. -/
def pySplit (s : String) : List String :=
  ((s.toList.splitOnP Char.isWhitespace).map String.mk).filter
    (fun t => t ≠ "")

/-- Per-surah scan state (transcribe_quran.py:77-89):
`concatenated_surah_gt_norm`, `ayah_char_boundaries` in insertion order
(ascending ayah number, as Python dicts preserve insertion order),
`current_char_pos`, and `surah_has_text`. -/
structure SurahScan where
  concat : String
  bounds : List (Nat × Nat × Nat)
  pos : Nat
  hasText : Bool
deriving DecidableEq

/-- The boundary-recording loop over a surah's ayahs
(transcribe_quran.py:82-89): usable ayah texts (non-empty, not the
sentinel "Error") are normalized, suffixed with one space, concatenated,
and given the inclusive character range
`(current_char_pos, current_char_pos + len(norm) - 1)`. -/
def buildSurahConcat (normalizeF : String → String)
    (catalog : Nat → Nat → Option String) (surah count : Nat) : SurahScan :=
  (List.range' 1 count).foldl
    (fun st ayah =>
      match catalog surah ayah with
      | none => st
      | some t =>
        if t = "" ∨ t = "Error" then st
        else
          { concat := st.concat ++ (normalizeF t ++ " "),
            bounds := st.bounds ++
              [(ayah, st.pos, st.pos + (normalizeF t ++ " ").length - 1)],
            pos := st.pos + (normalizeF t ++ " ").length,
            hasText := true })
    ⟨"", [], 0, false⟩

/-- Stable insertion into a list sorted descending by `key`. -/
def insertDescBy {α : Type} (key : α → Nat) (x : α) : List α → List α
  | [] => [x]
  | y :: ys => if key y < key x then x :: y :: ys else y :: insertDescBy key x ys

/-- Python `sorted(items, key=..., reverse=True)` (the boundary keys are
distinct, so sorting by key equals sorting by the whole tuple). -/
def sortDescBy {α : Type} (key : α → Nat) : List α → List α
  | [] => []
  | x :: xs => insertDescBy key x (sortDescBy key xs)

/-- `min(dict.keys())` over the boundary list (only used when nonempty). -/
def keysMin (bounds : List (Nat × Nat × Nat)) : Nat :=
  match bounds.map (fun t => t.1) with
  | [] => 0
  | k :: ks => ks.foldl min k

/-- `max(dict.keys())` over the boundary list (only used when nonempty). -/
def keysMax (bounds : List (Nat × Nat × Nat)) : Nat :=
  match bounds.map (fun t => t.1) with
  | [] => 0
  | k :: ks => ks.foldl max k

/-- Start-ayah boundary mapping (transcribe_quran.py:102-108): first
boundary containing `match.b`; otherwise, scanning keys descending, the
first with start ≤ `match.b`; otherwise the minimum key. `none` models the
`-1` sentinel surviving (empty boundary list). -/
def detectStartAyah (bounds : List (Nat × Nat × Nat)) (b : Nat) : Option Nat :=
  match bounds.find? (fun t => decide (t.2.1 ≤ b ∧ b ≤ t.2.2)) with
  | some t => some t.1
  | none =>
    if bounds.isEmpty then none
    else
      match (sortDescBy (fun t => t.1) bounds).find?
          (fun t => decide (t.2.1 ≤ b)) with
      | some t => some t.1
      | none => some (keysMin bounds)

/-- End-ayah boundary mapping (transcribe_quran.py:110-116): scanning keys
descending, the first boundary containing the match's last character;
otherwise, in insertion order, the first with end ≥ it; otherwise the
maximum key. -/
def detectEndAyah (bounds : List (Nat × Nat × Nat)) (e : Nat) : Option Nat :=
  match (sortDescBy (fun t => t.1) bounds).find?
      (fun t => decide (t.2.1 ≤ e ∧ e ≤ t.2.2)) with
  | some t => some t.1
  | none =>
    if bounds.isEmpty then none
    else
      match bounds.find? (fun t => decide (e ≤ t.2.2)) with
      | some t => some t.1
      | none => some (keysMax bounds)

/-- The tail of the per-surah branch (transcribe_quran.py:101-124) once the
matched-substring ratio `r` is computed: threshold check, boundary
mapping, swap when start > end. -/
def scanDecide (minRatio : ℚ) (surah : Nat) (bounds : List (Nat × Nat × Nat))
    (m : DiffMatch) (r : ℚ) : Option (Nat × Nat × Nat × ℚ) :=
  if minRatio ≤ r then
    match detectStartAyah bounds m.b, detectEndAyah bounds (m.b + m.size - 1) with
    | some sa, some ea =>
      if ea < sa then some (surah, ea, sa, r) else some (surah, sa, ea, r)
    | _, _ => none
  else none

/-- The `match.size > 0` branch (transcribe_quran.py:96-99): the ratio is
`SequenceMatcher(asr[a:a+size], concat[b:b+size]).ratio()`. -/
def scanWithState (ratioFn : String → String → ℚ) (minRatio : ℚ)
    (surah : Nat) (asr : String) (st : SurahScan) (m : DiffMatch) :
    Option (Nat × Nat × Nat × ℚ) :=
  if 0 < m.size then
    scanDecide minRatio surah st.bounds m
      (ratioFn (strSlice asr m.a m.size) (strSlice st.concat m.b m.size))
  else none

/-- One iteration of the surah loop (transcribe_quran.py:75-124), returning
the candidate match this surah contributes, if any. The `continue` at line
91 (no usable text) yields `none`. -/
def scanSurah (flm : String → String → DiffMatch)
    (ratioFn : String → String → ℚ) (normalizeF : String → String)
    (catalog : Nat → Nat → Option String) (ayahCount : Nat → Nat)
    (asr : String) (minRatio : ℚ) (surah : Nat) :
    Option (Nat × Nat × Nat × ℚ) :=
  if (buildSurahConcat normalizeF catalog surah (ayahCount surah)).hasText
        = false ∨
      (buildSurahConcat normalizeF catalog surah
        (ayahCount surah)).concat.trim = "" then none
  else
    scanWithState ratioFn minRatio surah asr
      (buildSurahConcat normalizeF catalog surah (ayahCount surah))
      (flm asr
        (buildSurahConcat normalizeF catalog surah (ayahCount surah)).concat)

/-- The best-candidate update (transcribe_quran.py:122-124): a candidate
replaces the current best only when its ratio is strictly greater; ties
keep the first found. -/
def bestStep (scan : Nat → Option (Nat × Nat × Nat × ℚ))
    (best : Option (Nat × Nat × Nat × ℚ)) (s : Nat) :
    Option (Nat × Nat × Nat × ℚ) :=
  match scan s with
  | none => best
  | some cand =>
    match best with
    | none => some cand
    | some b => if b.2.2.2 < cand.2.2.2 then some cand else best

/-- `find_best_quran_segment_match` (transcribe_quran.py:62-129). The
too-short guard returns `none` before any scan; `surahs_to_scan` honors a
truthy in-range surah hint, else scans surahs 1..114. -/
def find_best_quran_segment_match (flm : String → String → DiffMatch)
    (ratioFn : String → String → ℚ) (normalizeF : String → String)
    (catalog : Nat → Nat → Option String) (ayahCount : Nat → Nat)
    (asr : String) (minRatio : ℚ) (hint : Option Int) :
    Option (Nat × Nat × Nat × ℚ) :=
  if asr.trim = "" ∨ (pySplit asr).length < 2 then none
  else
    (match hint with
      | some h => if h ≠ 0 ∧ 1 ≤ h ∧ h ≤ 114 then [h.toNat]
                  else List.range' 1 114
      | none => List.range' 1 114).foldl
      (bestStep
        (scanSurah flm ratioFn normalizeF catalog ayahCount asr minRatio))
      none

/- Helper lemmas for the Range Detector. -/

lemma scanDecide_none (minRatio : ℚ) (surah : Nat)
    (bounds : List (Nat × Nat × Nat)) (m : DiffMatch) (r : ℚ)
    (h : r < minRatio) : scanDecide minRatio surah bounds m r = none := by
  unfold scanDecide
  rw [if_neg (not_le.mpr h)]

lemma scanSurah_none (flm : String → String → DiffMatch)
    (ratioFn : String → String → ℚ) (normalizeF : String → String)
    (catalog : Nat → Nat → Option String) (ayahCount : Nat → Nat)
    (asr : String) (minRatio : ℚ)
    (h : ∀ x y : String, ratioFn x y < minRatio) (surah : Nat) :
    scanSurah flm ratioFn normalizeF catalog ayahCount asr minRatio surah =
      none := by
  unfold scanSurah
  by_cases hg : (buildSurahConcat normalizeF catalog surah
        (ayahCount surah)).hasText = false ∨
      (buildSurahConcat normalizeF catalog surah
        (ayahCount surah)).concat.trim = ""
  · rw [if_pos hg]
  · rw [if_neg hg]
    unfold scanWithState
    by_cases hm : 0 < (flm asr (buildSurahConcat normalizeF catalog surah
        (ayahCount surah)).concat).size
    · rw [if_pos hm, scanDecide_none _ _ _ _ _ (h _ _)]
    · rw [if_neg hm]

lemma foldl_bestStep_none (scan : Nat → Option (Nat × Nat × Nat × ℚ))
    (h : ∀ s, scan s = none) :
    ∀ (surahs : List Nat), surahs.foldl (bestStep scan) none = none := by
  intro surahs
  induction surahs with
  | nil => rfl
  | cons s rest ih =>
    rw [List.foldl_cons]
    have hstep : bestStep scan none s = none := by
      unfold bestStep
      rw [h s]
    rw [hstep, ih]

/-- Claim C9: the Range Detector returns `none` for every transcript whose
normalized text has fewer than 2 words (the guard fires before any surah is
scanned), and returns `none` whenever no candidate group's
matched-substring similarity ratio reaches the configured minimum — e.g.
ratio 0.35 everywhere against threshold 0.4. -/
theorem find_best_segment_match_none (flm : String → String → DiffMatch)
    (ratioFn : String → String → ℚ) (normalizeF : String → String)
    (catalog : Nat → Nat → Option String) (ayahCount : Nat → Nat)
    (asr : String) (minRatio : ℚ) (hint : Option Int) :
    ((pySplit asr).length < 2 →
      find_best_quran_segment_match flm ratioFn normalizeF catalog ayahCount
        asr minRatio hint = none) ∧
    ((∀ x y : String, ratioFn x y < minRatio) →
      find_best_quran_segment_match flm ratioFn normalizeF catalog ayahCount
        asr minRatio hint = none) := by
  constructor
  · intro h
    unfold find_best_quran_segment_match
    rw [if_pos (Or.inr h)]
  · intro h
    unfold find_best_quran_segment_match
    by_cases hg : asr.trim = "" ∨ (pySplit asr).length < 2
    · rw [if_pos hg]
    · rw [if_neg hg]
      exact foldl_bestStep_none _
        (scanSurah_none flm ratioFn normalizeF catalog ayahCount asr minRatio h)
        _

/-- Claim C9 witness: a one-word transcript yields `none`, and a two-word
transcript whose ratio is 0.35 against every candidate with threshold 0.4
yields `none`. -/
theorem find_best_segment_match_none_witness :
    find_best_quran_segment_match (fun _ _ => ⟨0, 0, 0⟩) (fun _ _ => 7 / 20)
      id (fun _ _ => some "text") (fun _ => 3) "x" (2 / 5) none = none ∧
    find_best_quran_segment_match (fun _ _ => ⟨0, 0, 5⟩) (fun _ _ => 7 / 20)
      id (fun _ _ => some "text") (fun _ => 3) "abc def" (2 / 5) none =
      none := by
  constructor
  · exact (find_best_segment_match_none (fun _ _ => ⟨0, 0, 0⟩)
      (fun _ _ => 7 / 20) id (fun _ _ => some "text") (fun _ => 3) "x"
      (2 / 5) none).1 (by decide)
  · exact (find_best_segment_match_none (fun _ _ => ⟨0, 0, 5⟩)
      (fun _ _ => 7 / 20) id (fun _ _ => some "text") (fun _ => 3) "abc def"
      (2 / 5) none).2 (fun x y => by norm_num)
